import Mathlib

/-!
Verification of the nockchain mining coordinator and its base-field
arithmetic primitives.

The development shallowly embeds the Rust sources:
  * `crates/zkvm-jetpack/src/form/math/base.rs`            (namespace `Base`)
  * `crates/zkvm-jetpack/src/form/math/base_optimized.rs`  (namespace `BaseOpt`)
  * `crates/nockchain/src/mining.rs`                       (namespace `MainDriver`)
  * `crates/nockchain/src/mining_simple_optimized.rs`      (namespace `SimpleDriver`)

Machine integers are embedded as `Nat` with explicit reduction modulo
`2 ^ 64` (`u64size`) or `2 ^ 128` wherever the Rust code wraps or casts.
-/

set_option maxRecDepth 100000

/-- `2^64`, the modulus of Rust `u64` arithmetic. -/
def u64size : Nat := 2 ^ 64

/-- `2^128`, the modulus of Rust `u128` arithmetic. -/
def u128size : Nat := 2 ^ 128

namespace Base

/-- `PRIME` from base.rs: the Goldilocks prime `2^64 - 2^32 + 1`. -/
def PRIME : Nat := 18446744069414584321

/-- `PRIME_PRIME = PRIME - 2` from base.rs. -/
def PRIME_PRIME : Nat := PRIME - 2

/-- `H` from base.rs: claimed generator of the order-`2^32` subgroup. -/
def H : Nat := 20033703337

/-- `ORDER = 2^32` from base.rs. -/
def ORDER : Nat := 2 ^ 32

/-- `REDUCTION_MASK = (1 << 32) - 1` from base.rs. -/
def REDUCTION_MASK : Nat := 2 ^ 32 - 1

/-- `badd` from base.rs:
`sum = a.wrapping_add(b); if sum >= PRIME || sum < a { sum.wrapping_sub(PRIME) } else { sum }`.
Wrapping add is `% u64size`; wrapping sub of `PRIME` adds `2^64 - PRIME` and wraps. -/
def badd (a b : Nat) : Nat :=
  if (a + b) % u64size ≥ PRIME ∨ (a + b) % u64size < a then
    ((a + b) % u64size + (u64size - PRIME)) % u64size
  else
    (a + b) % u64size

/-- `reduce` from base.rs. `low = n as u64`, `high = (n >> 64) as u64`;
the `high == 0` fast path subtracts `PRIME` at most once, and the general
path folds `high * (2^32 - 1)` into `low`, subtracts `PRIME` at most once
and truncates the 128-bit result with `as u64` (embedded as `% u64size`). -/
def reduce (n : Nat) : Nat :=
  if n / u64size = 0 then
    if n % u64size ≥ PRIME then n % u64size - PRIME else n % u64size
  else
    if n % u64size + (n / u64size) * REDUCTION_MASK ≥ PRIME then
      (n % u64size + (n / u64size) * REDUCTION_MASK - PRIME) % u64size
    else
      (n % u64size + (n / u64size) * REDUCTION_MASK) % u64size

/-- `bmul` from base.rs: `reduce((a as u128) * (b as u128))`.
For `a b < 2^64` the 128-bit product does not overflow. -/
def bmul (a b : Nat) : Nat := reduce (a * b)

/-- The `while b > 0` loop of `bpow` from base.rs, with explicit fuel.
Each iteration halves `b`, so fuel `64` is exact for any `u64` exponent. -/
def bpowLoop : Nat → Nat → Nat → Nat → Nat
  | 0, _, _, result => result
  | fuel + 1, a, b, result =>
    if b = 0 then result
    else bpowLoop fuel (bmul a a) (b / 2)
      (if b % 2 = 1 then bmul result a else result)

/-- `bpow` from base.rs: early returns for `b = 0` and `b = 1`, then the
binary-exponentiation loop (fuel 64 covers every `u64` exponent). -/
def bpow (a b : Nat) : Nat :=
  if b = 0 then 1
  else if b = 1 then a
  else bpowLoop 64 a b 1

/-- `binv` from base.rs: panics on `a = 0` (embedded as `none`), otherwise
`bpow(a, PRIME_PRIME)` by Fermat. -/
def binv (a : Nat) : Option Nat :=
  if a = 0 then none else some (bpow a PRIME_PRIME)

/-- `badd_batch` from base.rs: the loop writes `badd(a[i], b[i])` at every
index of two equal-length slices. -/
def badd_batch (a b : List Nat) : List Nat := List.zipWith badd a b

/-- `bmul_batch` from base.rs: element-wise `bmul`. -/
def bmul_batch (a b : List Nat) : List Nat := List.zipWith bmul a b

end Base

/-- Iterated squaring modulo `PRIME`: `powModSq n x = x ^ (2 ^ n) % PRIME`.
Used to evaluate the mathematically correct value of `H ^ (2^32) mod p`. -/
def powModSq : Nat → Nat → Nat
  | 0, x => x % Base.PRIME
  | n + 1, x => powModSq n ((x * x) % Base.PRIME)

theorem powModSq_eq (n x : Nat) : powModSq n x = x ^ (2 ^ n) % Base.PRIME := by
  induction n generalizing x with
  | zero => simp [powModSq]
  | succ n ih =>
    rw [powModSq, ih, ← Nat.pow_mod]
    congr 1
    rw [pow_succ, pow_mul]
    ring

/-- C1. The spec claims `reduce(x) ∈ [0, p)` and `reduce(x) = x mod p` for
every 128-bit `x`.  The code folds `lo + hi * (2^32 - 1)` — a value that can
reach `≈ 2^96` — and subtracts `p` at most once, then truncates with
`as u64`.  At `x = 2^97 + 2` (a valid `u128`) the code returns `p` itself:
out of range and different from `x mod p = 0`.  The incorrectness already
hits in-range field multiplications: `bmul(p-1, p-1)` returns `17179869182`
although `(p-1)^2 mod p = 1`. -/
theorem c1_reduce_incorrect :
    Base.reduce (2 ^ 97 + 2) = 18446744069414584321 ∧
    ¬ Base.reduce (2 ^ 97 + 2) < Base.PRIME ∧
    (2 ^ 97 + 2) % Base.PRIME = 0 ∧
    2 ^ 97 + 2 < u128size ∧
    Base.bmul (Base.PRIME - 1) (Base.PRIME - 1) = 17179869182 ∧
    ((Base.PRIME - 1) * (Base.PRIME - 1)) % Base.PRIME = 1 := by
  refine ⟨by decide, by decide, by decide, by decide, by decide, by decide⟩

/-- C2. The spec (and the file's own `test_binv`) claims
`mul(888, inv(888)) = 1` and `pow(a, p-1) = 1`.  The code's `binv 888`
returns `1753230930586325409`, but `bmul 888` of that value is
`7342564529831880228 ≠ 1`, and `bpow 888 (p-1) ≠ 1`; the true inverse of
`888` modulo `p` is `3967711843759218024`.  The broken `reduce` is the
cause. -/
theorem c2_inverse_incorrect :
    Base.binv 888 = some 1753230930586325409 ∧
    Base.bmul 888 1753230930586325409 = 7342564529831880228 ∧
    Base.bmul 888 1753230930586325409 ≠ 1 ∧
    Base.bpow 888 (Base.PRIME - 1) = 5926533848324137852 ∧
    Base.bpow 888 (Base.PRIME - 1) ≠ 1 ∧
    (888 * 3967711843759218024) % Base.PRIME = 1 := by
  refine ⟨by decide, by decide, by decide, by decide, by decide, by decide⟩

/-- C6. The spec claims `pow(H, 2^32) = 1`.  Mathematically
`H ^ (2^32) mod p = 1` indeed holds (third conjunct, via iterated
squaring), but the code's `bpow H ORDER` returns `10999835511179291021`
because `reduce` is incorrect on large products. -/
theorem c6_subgroup_generator :
    Base.bpow Base.H Base.ORDER = 10999835511179291021 ∧
    Base.bpow Base.H Base.ORDER ≠ 1 ∧
    Base.H ^ Base.ORDER % Base.PRIME = 1 := by
  refine ⟨by decide, by decide, ?_⟩
  have h : Base.ORDER = 2 ^ 32 := rfl
  rw [h, ← powModSq_eq]
  decide

/-- C7. For inputs inside the field, `badd` computes `(a + b) mod p` via the
64-bit wrapping add and single conditional subtraction, and
`badd (p-1) 1 = 0`. -/
theorem c7_badd_correct :
    (∀ a b : Nat, a < Base.PRIME → b < Base.PRIME →
      Base.badd a b = (a + b) % Base.PRIME) ∧
    Base.badd (Base.PRIME - 1) 1 = 0 := by
  constructor
  · intro a b ha hb
    have ha' : a < 18446744069414584321 := ha
    have hb' : b < 18446744069414584321 := hb
    show Base.badd a b = (a + b) % 18446744069414584321
    unfold Base.badd
    have hU : u64size = 18446744073709551616 := rfl
    have hP : Base.PRIME = 18446744069414584321 := rfl
    rw [hU, hP]
    split <;> omega
  · decide

theorem c7_badd_correct_witness : Base.badd 5 9 = 14 := by
  have h := c7_badd_correct.1 5 9 (by decide) (by decide)
  exact h.trans (by decide)

namespace BaseOpt

/-- `badd_fast` from base_optimized.rs: identical to `Base.badd`. -/
def badd_fast (a b : Nat) : Nat :=
  if (a + b) % u64size ≥ Base.PRIME ∨ (a + b) % u64size < a then
    ((a + b) % u64size + (u64size - Base.PRIME)) % u64size
  else
    (a + b) % u64size

/-- `badd` from base_optimized.rs: `badd_fast` when AVX2 is detected,
otherwise `((a as u128) + (b as u128)) % PRIME_128` cast to `u64`.
The CPU-feature probe is embedded as the boolean `avx2`. -/
def badd (avx2 : Bool) (a b : Nat) : Nat :=
  if avx2 then badd_fast a b else ((a + b) % Base.PRIME) % u64size

/-- Two's-complement reading of a `u64` bit pattern as an `i64`, used by
the AVX2 signed comparison `_mm256_cmpgt_epi64`. -/
def toI64 (x : Nat) : Int :=
  if x < 2 ^ 63 then (x : Int) else (x : Int) - (u64size : Int)

/-- One 64-bit lane of `badd_avx2_batch` from base_optimized.rs:
`sum = _mm256_add_epi64(a, b)` (wrapping); the lane mask is
`_mm256_cmpgt_epi64(sum, PRIME)` — a SIGNED comparison — and
`_mm256_blendv_epi8` picks `sum - PRIME` (wrapping) when the mask is set. -/
def avx2AddLane (a b : Nat) : Nat :=
  if toI64 ((a + b) % u64size) > toI64 Base.PRIME then
    ((a + b) % u64size + (u64size - Base.PRIME)) % u64size
  else
    (a + b) % u64size

/-- `badd_batch` from base_optimized.rs: the AVX2 path runs
`badd_avx2_batch` lane-wise when `avx2` holds and the length is a positive
multiple of 4; otherwise the scalar loop writes `badd(a[i], b[i])`. -/
def badd_batch (avx2 : Bool) (a b : List Nat) : List Nat :=
  if avx2 ∧ 4 ≤ a.length ∧ a.length % 4 = 0 then
    List.zipWith avx2AddLane a b
  else
    List.zipWith (badd avx2) a b

/-- `bmul_batch` from base_optimized.rs: both the rayon path (length over
1000) and the scalar loop write `bmul(a[i], b[i])` at every index. -/
def bmul_batch (a b : List Nat) : List Nat :=
  if 1000 < a.length then List.zipWith Base.bmul a b
  else List.zipWith Base.bmul a b

end BaseOpt

/-- C3. The spec claims batch variants match the element-wise scalar
variants bit-for-bit regardless of the fast path taken.  On an AVX2
machine, `badd_batch` of the repository's own `test_batch_operations`
vectors takes the SIMD path, whose signed lane comparison
`_mm256_cmpgt_epi64(sum, PRIME)` reads `PRIME` as the negative `i64`
`-(2^32 - 1)`: every small sum compares greater, so `PRIME` is wrongly
subtracted and each lane returns `4294967304` where scalar `badd` returns
`9`.  (`bmul_batch` is element-wise on both of its paths.) -/
theorem c3_batch_mismatch :
    BaseOpt.badd_batch true [1, 2, 3, 4, 5, 6, 7, 8] [8, 7, 6, 5, 4, 3, 2, 1] =
      [4294967304, 4294967304, 4294967304, 4294967304,
       4294967304, 4294967304, 4294967304, 4294967304] ∧
    List.zipWith BaseOpt.badd_fast [1, 2, 3, 4, 5, 6, 7, 8] [8, 7, 6, 5, 4, 3, 2, 1] =
      [9, 9, 9, 9, 9, 9, 9, 9] ∧
    BaseOpt.badd_batch true [1, 2, 3, 4, 5, 6, 7, 8] [8, 7, 6, 5, 4, 3, 2, 1] ≠
      List.zipWith BaseOpt.badd_fast [1, 2, 3, 4, 5, 6, 7, 8] [8, 7, 6, 5, 4, 3, 2, 1] := by
  refine ⟨by decide, by decide, by decide⟩

namespace MainDriver

/-- The three `u64` counters of `MiningStats` from mining.rs (the timing
fields, histograms and running means are outside this model). -/
structure Counters where
  totalAttempts : Nat
  successfulBlocks : Nat
  failedAttempts : Nat
deriving DecidableEq

/-- The zero-initialised counters of `MiningStats::new`. -/
def initCounters : Counters := ⟨0, 0, 0⟩

/-- The counter updates of `MiningStats::record_attempt` from mining.rs:
`total_attempts` is always bumped, and exactly one of
`successful_blocks` / `failed_attempts` is bumped according to `success`.
`fetch_add` on `AtomicU64` wraps modulo `2^64`. -/
def recordAttempt (s : Counters) (success : Bool) : Counters :=
  { totalAttempts := (s.totalAttempts + 1) % u64size
    successfulBlocks :=
      if success then (s.successfulBlocks + 1) % u64size else s.successfulBlocks
    failedAttempts :=
      if success then s.failedAttempts else (s.failedAttempts + 1) % u64size }

/-- The counter invariant: the counters are in `u64` range and
`total_attempts` is the (wrapped) sum of successes and failures. -/
def countersInv (s : Counters) : Prop :=
  s.totalAttempts = (s.successfulBlocks + s.failedAttempts) % u64size ∧
  s.totalAttempts < u64size ∧ s.successfulBlocks < u64size ∧
  s.failedAttempts < u64size

theorem recordAttempt_true (s : Counters) :
    recordAttempt s true =
      ⟨(s.totalAttempts + 1) % u64size, (s.successfulBlocks + 1) % u64size,
        s.failedAttempts⟩ := rfl

theorem recordAttempt_false (s : Counters) :
    recordAttempt s false =
      ⟨(s.totalAttempts + 1) % u64size, s.successfulBlocks,
        (s.failedAttempts + 1) % u64size⟩ := rfl

end MainDriver

/-- C10. `record_attempt` increments `total_attempts` and exactly one of
`successful_blocks` (success) or `failed_attempts` (failure), so the
invariant `total_attempts = successful_blocks + failed_attempts` (modulo
the `u64` wrap of `fetch_add`) holds at the all-zero initial state and is
preserved by every call. -/
theorem c10_record_attempt_invariant (s : MainDriver.Counters) (success : Bool)
    (hs : MainDriver.countersInv s) :
    MainDriver.countersInv (MainDriver.recordAttempt s success) ∧
    (MainDriver.recordAttempt s success).totalAttempts =
      (s.totalAttempts + 1) % u64size ∧
    (success = true →
      (MainDriver.recordAttempt s success).successfulBlocks =
        (s.successfulBlocks + 1) % u64size ∧
      (MainDriver.recordAttempt s success).failedAttempts = s.failedAttempts) ∧
    (success = false →
      (MainDriver.recordAttempt s success).successfulBlocks = s.successfulBlocks ∧
      (MainDriver.recordAttempt s success).failedAttempts =
        (s.failedAttempts + 1) % u64size) ∧
    MainDriver.countersInv MainDriver.initCounters := by
  obtain ⟨h1, h2, h3, h4⟩ := hs
  have hU : u64size = 18446744073709551616 := rfl
  rw [hU] at h1 h2 h3 h4
  have hinit : MainDriver.countersInv MainDriver.initCounters :=
    ⟨by decide, by decide, by decide, by decide⟩
  cases success
  case true =>
    rw [MainDriver.recordAttempt_true]
    unfold MainDriver.countersInv
    dsimp only
    rw [hU]
    exact ⟨by omega, rfl, fun _ => ⟨rfl, rfl⟩, by simp, hinit⟩
  case false =>
    rw [MainDriver.recordAttempt_false]
    unfold MainDriver.countersInv
    dsimp only
    rw [hU]
    exact ⟨by omega, rfl, by simp, fun _ => ⟨rfl, rfl⟩, hinit⟩

theorem c10_record_attempt_invariant_witness :
    MainDriver.countersInv (MainDriver.recordAttempt ⟨5, 2, 3⟩ true) :=
  (c10_record_attempt_invariant ⟨5, 2, 3⟩ true
    ⟨by decide, by decide, by decide, by decide⟩).1

/-- Nock nouns: an atom (unsigned integer) or a cell of two nouns, as used
by the mining driver's pokes and effects. -/
inductive Noun where
  | atom : Nat → Noun
  | cell : Noun → Noun → Noun
deriving DecidableEq

/-- The little-endian byte value of an ASCII string, as produced by
`Atom::from_value` on a string and by the `tas!` macro: the first
character is the least significant byte. -/
def strAtom (s : List Char) : Nat :=
  s.foldr (fun c acc => acc * 256 + c.toNat) 0

/-- A nil-terminated noun list `[x1 x2 ... xn 0]`. -/
def nounList (xs : List Noun) : Noun := xs.foldr Noun.cell (Noun.atom 0)

/-- `MiningKeyConfig` from mining.rs: `share`, `m` and a non-empty list of
key strings (strings are embedded as `List Char`). -/
structure MiningKeyConfig where
  share : Nat
  m : Nat
  keys : List (List Char)
deriving DecidableEq

namespace MainDriver

/-- The key-list noun of `set_mining_key_advanced` from mining.rs: built by
prepending, `keys_noun = T(&[key_atom, keys_noun])`, starting from `D(0)`. -/
def keysNoun (keys : List (List Char)) : Noun :=
  keys.foldl (fun acc k => Noun.cell (Noun.atom (strAtom k)) acc) (Noun.atom 0)

/-- The `[share m keys]` config tuple of `set_mining_key_advanced`:
`T(&[D(share), D(m), keys_noun])` is the cell `[share [m keys]]`. -/
def configTuple (c : MiningKeyConfig) : Noun :=
  Noun.cell (Noun.atom c.share) (Noun.cell (Noun.atom c.m) (keysNoun c.keys))

/-- The config-list noun of `set_mining_key_advanced`: built by prepending
each config tuple onto the list so far, starting from `D(0)`. -/
def configsListNoun (configs : List MiningKeyConfig) : Noun :=
  configs.foldl (fun acc c => Noun.cell (configTuple c) acc) (Noun.atom 0)

/-- The poke noun of `set_mining_key_advanced`:
`[%command "set-mining-key-advanced" configs_list]`. -/
def setMiningKeyAdvancedPoke (configs : List MiningKeyConfig) : Noun :=
  Noun.cell (Noun.atom (strAtom "command".data))
    (Noun.cell (Noun.atom (strAtom "set-mining-key-advanced".data))
      (configsListNoun configs))

/-- The poke noun of `set_mining_key`: `[%command "set-mining-key" pubkey]`. -/
def setMiningKeyPoke (key : List Char) : Noun :=
  Noun.cell (Noun.atom (strAtom "command".data))
    (Noun.cell (Noun.atom (strAtom "set-mining-key".data))
      (Noun.atom (strAtom key)))

/-- The startup condition of `create_mining_driver` from mining.rs:
`configs.len() == 1 && configs[0].share == 1 && configs[0].m == 1 &&
configs[0].keys.len() == 1`, returning the single key when it holds. -/
def singleSimpleKey : List MiningKeyConfig → Option (List Char)
  | [c] =>
    match c.keys with
    | [k] => if c.share = 1 ∧ c.m = 1 then some k else none
    | _ => none
  | _ => none

/-- The key-setup poke emitted by `create_mining_driver` (mining.rs) for a
supplied configuration: `set_mining_key` when the single-simple condition
holds, `set_mining_key_advanced` otherwise. -/
def startupKeyPoke (configs : List MiningKeyConfig) : Noun :=
  match singleSimpleKey configs with
  | some k => setMiningKeyPoke k
  | none => setMiningKeyAdvancedPoke configs

theorem singleSimpleKey_eq_some (configs : List MiningKeyConfig)
    (k : List Char) :
    singleSimpleKey configs = some k ↔ configs = [⟨1, 1, [k]⟩] := by
  cases configs with
  | nil => simp [singleSimpleKey]
  | cons c rest =>
    cases rest with
    | cons d rest2 => simp [singleSimpleKey]
    | nil =>
      obtain ⟨s, m, keys⟩ := c
      cases keys with
      | nil => simp [singleSimpleKey]
      | cons k0 krest =>
        cases krest with
        | cons k1 krest2 => simp [singleSimpleKey]
        | nil =>
          simp only [singleSimpleKey]
          split
          case isTrue hsm =>
            obtain ⟨hs1, hm1⟩ := hsm
            subst hs1; subst hm1
            simp
          case isFalse hsm =>
            constructor
            · intro hc; exact Option.noConfusion hc
            · intro hc
              rw [List.cons.injEq, MiningKeyConfig.mk.injEq] at hc
              exact absurd ⟨hc.1.1, hc.1.2.1⟩ hsm

end MainDriver

/-- C8. With a non-empty configuration, the mining.rs driver emits
`set-mining-key` exactly when the configuration is a single entry with
`share = 1`, `m = 1` and one key (payload that key), and otherwise emits
`set-mining-key-advanced`, whose payload is the nil-terminated list of
`[share m keylist]` tuples in reverse insertion order — the reversal of
the input order, so the first config ends up deepest.  The keylist inside
each tuple is likewise a nil-terminated (reversed) list of key atoms. -/
theorem c8_startup_key_poke (configs : List MiningKeyConfig)
    (_hne : configs ≠ []) :
    (∀ k, configs = [⟨1, 1, [k]⟩] →
      MainDriver.startupKeyPoke configs = MainDriver.setMiningKeyPoke k) ∧
    ((∀ k, configs ≠ [⟨1, 1, [k]⟩]) →
      MainDriver.startupKeyPoke configs =
        MainDriver.setMiningKeyAdvancedPoke configs) ∧
    MainDriver.configsListNoun configs =
      nounList ((configs.map MainDriver.configTuple).reverse) ∧
    (∀ c : MiningKeyConfig,
      MainDriver.keysNoun c.keys =
        nounList ((c.keys.map (fun k => Noun.atom (strAtom k))).reverse)) := by
  refine ⟨?_, ?_, ?_, ?_⟩
  · intro k hk
    unfold MainDriver.startupKeyPoke
    rw [(MainDriver.singleSimpleKey_eq_some configs k).mpr hk]
  · intro hk
    unfold MainDriver.startupKeyPoke
    have : MainDriver.singleSimpleKey configs = none := by
      cases h : MainDriver.singleSimpleKey configs with
      | none => rfl
      | some k =>
        exact absurd ((MainDriver.singleSimpleKey_eq_some configs k).mp h)
          (hk k)
    rw [this]
  · unfold MainDriver.configsListNoun nounList
    rw [List.foldr_reverse, List.foldl_map]
  · intro c
    unfold MainDriver.keysNoun nounList
    rw [List.foldr_reverse, List.foldl_map]

theorem c8_startup_key_poke_witness :
    MainDriver.startupKeyPoke [⟨2, 3, ["K1".data, "K2".data]⟩, ⟨1, 1, ["K3".data]⟩] =
      MainDriver.setMiningKeyAdvancedPoke
        [⟨2, 3, ["K1".data, "K2".data]⟩, ⟨1, 1, ["K3".data]⟩] ∧
    MainDriver.startupKeyPoke [⟨1, 1, ["KEYA".data]⟩] =
      MainDriver.setMiningKeyPoke "KEYA".data := by
  constructor
  · exact (c8_startup_key_poke _ (List.cons_ne_nil _ _)).2.1 (fun k => by simp)
  · exact (c8_startup_key_poke _ (List.cons_ne_nil _ _)).1 "KEYA".data rfl

namespace MainDriver

/-- The effect filter of `optimized_mining_attempt` from mining.rs: an
effect counts when it is a cell whose head `eq_bytes("command")`; non-cell
effects are skipped by the `let Ok(..) else continue`. -/
def isCommandEffect (e : Noun) : Bool :=
  match e with
  | Noun.cell h _ => h == Noun.atom (strAtom "command".data)
  | Noun.atom _ => false

/-- The scan loop of `optimized_mining_attempt` from mining.rs: walk the
effect list, set the result to the first command effect and `break`. -/
def scanEffects : List Noun → Option Noun
  | [] => none
  | e :: rest =>
    match e with
    | Noun.cell h t =>
      if h == Noun.atom (strAtom "command".data) then some (Noun.cell h t)
      else scanEffects rest
    | Noun.atom _ => scanEffects rest

end MainDriver

namespace SimpleDriver

/-- The result loop of `optimized_mining_attempt` from
mining_simple_optimized.rs: every command effect in the stream is poked
upstream under the `mined` wire (there is no `break`), in stream order.
The returned list holds the pokes emitted for one attempt. -/
def minedPokes : List Noun → List Noun
  | [] => []
  | e :: rest =>
    match e with
    | Noun.cell h t =>
      if h == Noun.atom (strAtom "command".data) then
        Noun.cell h t :: minedPokes rest
      else minedPokes rest
    | Noun.atom _ => minedPokes rest

end SimpleDriver

/-- A concrete command effect used in counterexamples. -/
def cmdEffect (n : Nat) : Noun :=
  Noun.cell (Noun.atom (strAtom "command".data)) (Noun.atom n)

/-- C5 counterexample. The claim says a worker emits AT MOST ONE result
per attempt — only the first `"command"` effect.  The worker of
mining_simple_optimized.rs pokes EVERY command effect: on an effect
stream holding two command effects it emits both of them. -/
theorem c5_counterexample_simple_worker_emits_two :
    SimpleDriver.minedPokes [cmdEffect 1, cmdEffect 2] =
      [cmdEffect 1, cmdEffect 2] ∧
    (SimpleDriver.minedPokes [cmdEffect 1, cmdEffect 2]).length = 2 := by
  refine ⟨by decide, by decide⟩

/-- C5 (amended). The pooled worker of mining.rs emits at most one result:
the first command effect of the stream (the `find?` of the command filter),
and none when no command effect occurs.  The simple-optimized worker
instead pokes every command effect, in stream order (the `filter`). -/
theorem c5_scan_first_command (effects : List Noun) :
    MainDriver.scanEffects effects = effects.find? MainDriver.isCommandEffect ∧
    (MainDriver.scanEffects effects = none ↔
      ∀ e ∈ effects, MainDriver.isCommandEffect e = false) ∧
    (∀ r, MainDriver.scanEffects effects = some r →
      ∃ pre post, effects = pre ++ r :: post ∧
        MainDriver.isCommandEffect r = true ∧
        ∀ e ∈ pre, MainDriver.isCommandEffect e = false) ∧
    SimpleDriver.minedPokes effects =
      effects.filter MainDriver.isCommandEffect := by
  induction effects with
  | nil =>
    refine ⟨rfl, by simp [MainDriver.scanEffects], ?_, rfl⟩
    intro r hr
    exact Option.noConfusion hr
  | cons e rest ih =>
    obtain ⟨ih1, ih2, ih3, ih4⟩ := ih
    have hcases :
        (MainDriver.isCommandEffect e = true ∧
          MainDriver.scanEffects (e :: rest) = some e ∧
          SimpleDriver.minedPokes (e :: rest) =
            e :: SimpleDriver.minedPokes rest) ∨
        (MainDriver.isCommandEffect e = false ∧
          MainDriver.scanEffects (e :: rest) = MainDriver.scanEffects rest ∧
          SimpleDriver.minedPokes (e :: rest) =
            SimpleDriver.minedPokes rest) := by
      cases e with
      | atom n =>
        exact Or.inr ⟨rfl, rfl, rfl⟩
      | cell h t =>
        by_cases hh : h == Noun.atom (strAtom "command".data)
        · left
          refine ⟨?_, ?_, ?_⟩
          · simp [MainDriver.isCommandEffect, hh]
          · simp [MainDriver.scanEffects, hh]
          · simp [SimpleDriver.minedPokes, hh]
        · right
          refine ⟨?_, ?_, ?_⟩
          · simp only [MainDriver.isCommandEffect]
            exact Bool.eq_false_iff.mpr hh
          · simp [MainDriver.scanEffects, hh]
          · simp [SimpleDriver.minedPokes, hh]
    rcases hcases with ⟨hcmd, hscan, hpoke⟩ | ⟨hcmd, hscan, hpoke⟩
    · refine ⟨?_, ?_, ?_, ?_⟩
      · rw [hscan, List.find?_cons_of_pos _ hcmd]
      · rw [hscan]
        constructor
        · intro hc; exact Option.noConfusion hc
        · intro hall
          have hx := hall e (List.mem_cons_self e rest)
          rw [hcmd] at hx
          exact Bool.noConfusion hx
      · intro r hr
        rw [hscan] at hr
        have her : e = r := Option.some.inj hr
        subst her
        exact ⟨[], rest, rfl, hcmd, by intro x hx; exact absurd hx (List.not_mem_nil x)⟩
      · rw [hpoke, ih4]
        simp [List.filter_cons, hcmd]
    · refine ⟨?_, ?_, ?_, ?_⟩
      · rw [hscan, ih1, List.find?_cons_of_neg _ (by rw [hcmd]; exact Bool.false_ne_true)]
      · rw [hscan, ih2]
        constructor
        · intro hall x hx
          rcases List.mem_cons.mp hx with rfl | hx2
          · exact hcmd
          · exact hall x hx2
        · intro hall x hx
          exact hall x (List.mem_cons_of_mem e hx)
      · intro r hr
        rw [hscan] at hr
        obtain ⟨pre, post, heq, hrc, hpre⟩ := ih3 r hr
        refine ⟨e :: pre, post, by rw [heq, List.cons_append], hrc, ?_⟩
        intro x hx
        rcases List.mem_cons.mp hx with rfl | hx2
        · exact hcmd
        · exact hpre x hx2
      · rw [hpoke, ih4]
        simp [List.filter_cons, hcmd]

/-- What a driver's key-setup phase did: how many key-setup pokes were
emitted, how many 5-second sleeps separated them, whether setup succeeded,
whether the init-complete signal was sent, and whether the driver aborted
(returned an error from the driver function). -/
structure SetupTrace where
  keyEmissions : Nat
  sleeps : Nat
  setupSuccess : Bool
  initSignalled : Bool
  aborted : Bool
deriving DecidableEq

namespace MainDriver

/-- The key-setup phase of `create_mining_driver` from mining.rs when a
configuration is supplied: one `set_mining_key` / `set_mining_key_advanced`
poke whose error propagates with `?` (aborting the driver before the
init-complete send), then one `enable_mining` poke, likewise with `?`.
There is no retry and no sleep.  `keyPokeOk` / `enablePokeOk` say whether
the respective pokes succeed. -/
def startupSetup (keyPokeOk enablePokeOk : Bool) : SetupTrace :=
  if ¬ keyPokeOk then ⟨1, 0, false, false, true⟩
  else if ¬ enablePokeOk then ⟨1, 0, false, false, true⟩
  else ⟨1, 0, true, true, false⟩

end MainDriver

namespace SimpleDriver

/-- One pass of the `for attempt in 1..=3` retry loop of
`create_mining_driver` from mining_simple_optimized.rs, over the list of
remaining attempt numbers.  Each attempt emits one key-setup poke
(`keyOk`); on success it also tries `enable_mining` (`enableOk`) and
breaks when both succeed; otherwise it sleeps 5 seconds unless it was the
final attempt.  Returns (key emissions, sleeps, success). -/
def setupLoop (keyOk enableOk : Nat → Bool) : List Nat → Nat × Nat × Bool
  | [] => (0, 0, false)
  | a :: rest =>
    if keyOk a && enableOk a then (1, 0, true)
    else
      let r := setupLoop keyOk enableOk rest
      (1 + r.1, (if rest.isEmpty then 0 else 1) + r.2.1, r.2.2)

/-- The key-setup phase of the simple-optimized driver: the three-attempt
retry loop; on exhaustion the failure is only logged (`warn`), the
init-complete signal is still sent and the driver continues — it never
aborts because of key-setup failure. -/
def startupSetup (keyOk enableOk : Nat → Bool) : SetupTrace :=
  let r := setupLoop keyOk enableOk [1, 2, 3]
  ⟨r.1, r.2.1, r.2.2, true, false⟩

end SimpleDriver

/-- C4 counterexample. The claim says every key-setup poke emission during
driver startup is retried up to three times with 5-second back-offs and
that after exhaustion the driver continues.  In `create_mining_driver` of
mining.rs a failing key-setup poke is attempted exactly ONCE, there is no
back-off sleep, and the `?` operator aborts the driver (the init-complete
signal is never sent). -/
theorem c4_counterexample_main_driver_no_retry :
    MainDriver.startupSetup false true =
      ⟨1, 0, false, false, true⟩ := by
  decide

/-- C4 (amended). The retry policy holds only for the driver of
mining_simple_optimized.rs: whatever the poke outcomes, it emits between
one and three key-setup pokes with exactly one 5-second sleep between
consecutive attempts (`sleeps = keyEmissions - 1`), never aborts, and
always signals init-complete; when key setup never succeeds all three
attempts are used and setup failure is only logged.  The mining.rs driver
instead emits exactly one key-setup poke and aborts on its failure. -/
theorem c4_retry_policy (keyOk enableOk : Nat → Bool) :
    1 ≤ (SimpleDriver.startupSetup keyOk enableOk).keyEmissions ∧
    (SimpleDriver.startupSetup keyOk enableOk).keyEmissions ≤ 3 ∧
    (SimpleDriver.startupSetup keyOk enableOk).sleeps =
      (SimpleDriver.startupSetup keyOk enableOk).keyEmissions - 1 ∧
    (SimpleDriver.startupSetup keyOk enableOk).aborted = false ∧
    (SimpleDriver.startupSetup keyOk enableOk).initSignalled = true ∧
    ((∀ a, keyOk a = false) →
      (SimpleDriver.startupSetup keyOk enableOk).keyEmissions = 3 ∧
      (SimpleDriver.startupSetup keyOk enableOk).setupSuccess = false) ∧
    (∀ kOk eOk : Bool,
      (MainDriver.startupSetup kOk eOk).keyEmissions = 1 ∧
      ((MainDriver.startupSetup kOk eOk).aborted = true ↔
        (kOk && eOk) = false)) := by
  have h1 : SimpleDriver.startupSetup keyOk enableOk =
      if keyOk 1 && enableOk 1 then ⟨1, 0, true, true, false⟩
      else if keyOk 2 && enableOk 2 then ⟨2, 1, true, true, false⟩
      else if keyOk 3 && enableOk 3 then ⟨3, 2, true, true, false⟩
      else ⟨3, 2, false, true, false⟩ := by
    by_cases h12 : keyOk 1 && enableOk 1 <;>
      by_cases h22 : keyOk 2 && enableOk 2 <;>
        by_cases h32 : keyOk 3 && enableOk 3 <;>
          simp [SimpleDriver.startupSetup, SimpleDriver.setupLoop,
            h12, h22, h32, List.isEmpty]
  refine ⟨?_, ?_, ?_, ?_, ?_, ?_, ?_⟩
  · rw [h1]
    split
    · decide
    · split
      · decide
      · split <;> decide
  · rw [h1]
    split
    · decide
    · split
      · decide
      · split <;> decide
  · rw [h1]
    split
    · decide
    · split
      · decide
      · split <;> decide
  · rw [h1]
    split
    · decide
    · split
      · decide
      · split <;> decide
  · rw [h1]
    split
    · decide
    · split
      · decide
      · split <;> decide
  · intro hfail
    rw [h1]
    simp [hfail 1, hfail 2, hfail 3]
  · intro kOk eOk
    cases kOk <;> cases eOk <;> exact ⟨by decide, by decide⟩

theorem c4_retry_policy_witness :
    (SimpleDriver.startupSetup (fun _ => false) (fun _ => true)).keyEmissions = 3 ∧
    (SimpleDriver.startupSetup (fun _ => false) (fun _ => true)).setupSuccess = false :=
  (c4_retry_policy (fun _ => false) (fun _ => true)).2.2.2.2.2.1 (fun _ => rfl)

/-- The accumulation of Rust's base-10 `u64` parser over a digit string:
`acc = acc * 10 + digit`. -/
def digitsVal (ds : List Char) : Nat :=
  ds.foldl (fun acc c => acc * 10 + (c.toNat - 48)) 0

/-- Rust's `from_str_radix` strips one optional leading plus sign. -/
def stripPlus (s : List Char) : List Char :=
  if s.head? = some '+' then s.tail else s

/-- Rust `str::parse::<u64>` (core `from_str_radix`, radix 10), embedded
extensionally: an empty string is an error; after stripping an optional
leading plus the remainder must be one or more ASCII digits (`-` is not
accepted for unsigned types); the checked accumulation overflows exactly
when the value reaches `2^64`.  Error messages follow
`ParseIntError::to_string`. -/
def parseU64 (s : List Char) : Except String Nat :=
  if s = [] then Except.error "cannot parse integer from empty string"
  else if stripPlus s = [] then Except.error "invalid digit found in string"
  else if (stripPlus s).all Char.isDigit then
    if digitsVal (stripPlus s) < u64size then Except.ok (digitsVal (stripPlus s))
    else Except.error "number too large to fit in target type"
  else Except.error "invalid digit found in string"

namespace MiningKeyConfig

/-- `MiningKeyConfig::from_str` from mining.rs (the same impl appears in
mining_simple_optimized.rs): split on `:` requiring exactly two parts,
split the first part on `,` requiring exactly two parts, parse both as
`u64` propagating the parse error text, and collect the keys by splitting
the second part on `,`. -/
def fromStr (s : List Char) : Except String MiningKeyConfig :=
  match s.splitOn ':' with
  | [p0, p1] =>
    match p0.splitOn ',' with
    | [s0, s1] =>
      match parseU64 s0 with
      | Except.error e => Except.error e
      | Except.ok share =>
        match parseU64 s1 with
        | Except.error e => Except.error e
        | Except.ok m => Except.ok ⟨share, m, p1.splitOn ','⟩
    | _ => Except.error "Invalid share,m format"
  | _ => Except.error "Invalid format. Expected 'share,m:key1,key2,key3'"

end MiningKeyConfig

/-- A base-10 unsigned 64-bit numeral as accepted by Rust's `u64` parser:
optionally a leading plus sign, then a non-empty digit string whose value
is below `2^64`. -/
def isU64Numeral (w : List Char) (v : Nat) : Prop :=
  ∃ ds, (w = ds ∨ w = '+' :: ds) ∧ ds ≠ [] ∧ (∀ c ∈ ds, c.isDigit = true) ∧
    digitsVal ds = v ∧ v < u64size

/-- The configuration grammar `<share>,<m>:<key1>,...,<keyK>` of the spec:
`share` and `m` are base-10 unsigned 64-bit numerals, `K ≥ 1`, and each
key is a (possibly empty) string free of the separators `:` and `,`. -/
def goodForm (s : List Char) (cfg : MiningKeyConfig) : Prop :=
  ∃ w1 w2, isU64Numeral w1 cfg.share ∧ isU64Numeral w2 cfg.m ∧
    cfg.keys ≠ [] ∧
    (∀ k ∈ cfg.keys, ':' ∉ k ∧ ',' ∉ k) ∧
    s = w1 ++ ',' :: (w2 ++ ':' :: List.intercalate [','] cfg.keys)

theorem splitOnP_mem_not {α : Type} (p : α → Bool) (l : List α) :
    ∀ q ∈ l.splitOnP p, ∀ a ∈ q, p a = false := by
  induction l with
  | nil =>
    intro q hq a ha
    rw [List.splitOnP_nil, List.mem_singleton] at hq
    subst hq
    exact absurd ha (List.not_mem_nil a)
  | cons x xs ih =>
    intro q hq a ha
    rw [List.splitOnP_cons] at hq
    by_cases hx : p x = true
    · rw [if_pos hx] at hq
      rcases List.mem_cons.mp hq with rfl | hq2
      · exact absurd ha (List.not_mem_nil a)
      · exact ih q hq2 a ha
    · rw [if_neg hx] at hq
      obtain ⟨h0, t0, hsplit⟩ : ∃ h0 t0, xs.splitOnP p = h0 :: t0 := by
        cases hs : xs.splitOnP p with
        | nil => exact absurd hs (List.splitOnP_ne_nil p xs)
        | cons h0 t0 => exact ⟨h0, t0, rfl⟩
      rw [hsplit] at hq
      simp only [List.modifyHead] at hq
      rcases List.mem_cons.mp hq with rfl | hq2
      · rcases List.mem_cons.mp ha with rfl | ha2
        · exact Bool.eq_false_iff.mpr hx
        · exact ih h0 (hsplit ▸ List.mem_cons_self h0 t0) a ha2
      · exact ih q (hsplit ▸ List.mem_cons_of_mem h0 hq2) a ha

theorem splitOnP_mem_subset {α : Type} (p : α → Bool) (l : List α) :
    ∀ q ∈ l.splitOnP p, ∀ a ∈ q, a ∈ l := by
  induction l with
  | nil =>
    intro q hq a ha
    rw [List.splitOnP_nil, List.mem_singleton] at hq
    subst hq
    exact absurd ha (List.not_mem_nil a)
  | cons x xs ih =>
    intro q hq a ha
    rw [List.splitOnP_cons] at hq
    by_cases hx : p x = true
    · rw [if_pos hx] at hq
      rcases List.mem_cons.mp hq with rfl | hq2
      · exact absurd ha (List.not_mem_nil a)
      · exact List.mem_cons_of_mem x (ih q hq2 a ha)
    · rw [if_neg hx] at hq
      obtain ⟨h0, t0, hsplit⟩ : ∃ h0 t0, xs.splitOnP p = h0 :: t0 := by
        cases hs : xs.splitOnP p with
        | nil => exact absurd hs (List.splitOnP_ne_nil p xs)
        | cons h0 t0 => exact ⟨h0, t0, rfl⟩
      rw [hsplit] at hq
      simp only [List.modifyHead] at hq
      rcases List.mem_cons.mp hq with rfl | hq2
      · rcases List.mem_cons.mp ha with rfl | ha2
        · exact List.mem_cons_self a xs
        · exact List.mem_cons_of_mem x
            (ih h0 (hsplit ▸ List.mem_cons_self h0 t0) a ha2)
      · exact List.mem_cons_of_mem x
          (ih q (hsplit ▸ List.mem_cons_of_mem h0 hq2) a ha)

theorem splitOn_mem_not_mem {α : Type} [DecidableEq α] (x : α) (l : List α)
    (q : List α) (hq : q ∈ l.splitOn x) : x ∉ q := by
  intro hx
  have h := splitOnP_mem_not (· == x) l q hq x hx
  simp at h

theorem splitOn_mem_subset {α : Type} [DecidableEq α] (x : α) (l : List α)
    (q : List α) (hq : q ∈ l.splitOn x) : ∀ a ∈ q, a ∈ l :=
  splitOnP_mem_subset (· == x) l q hq

theorem intercalate_pair {α : Type} (x : α) (a b : List α) :
    [x].intercalate [a, b] = a ++ x :: b := by
  simp [List.intercalate]

theorem splitOn_eq_pair {α : Type} [DecidableEq α] (x : α) (a b : List α)
    (ha : x ∉ a) (hb : x ∉ b) :
    (a ++ x :: b).splitOn x = [a, b] := by
  unfold List.splitOn
  rw [List.splitOnP_first (· == x) a
    (fun y hy hyx => ha ((eq_of_beq hyx) ▸ hy)) x (by simp) b]
  rw [List.splitOnP_eq_single (· == x) b
    (fun y hy hyx => hb ((eq_of_beq hyx) ▸ hy))]

theorem intercalate_cons_cons {α : Type} (sep a b : List α)
    (t : List (List α)) :
    List.intercalate sep (a :: b :: t) =
      a ++ sep ++ List.intercalate sep (b :: t) := by
  simp [List.intercalate]

theorem mem_intercalate_single {α : Type} (sep : α) (ls : List (List α))
    (a : α) (ha : a ∈ List.intercalate [sep] ls) :
    a = sep ∨ ∃ k ∈ ls, a ∈ k := by
  induction ls with
  | nil => simp [List.intercalate] at ha
  | cons h t ih =>
    cases t with
    | nil =>
      right
      refine ⟨h, List.mem_cons_self h [], ?_⟩
      simpa [List.intercalate] using ha
    | cons h2 t2 =>
      rw [intercalate_cons_cons] at ha
      rcases List.mem_append.mp ha with hleft | hright
      · rcases List.mem_append.mp hleft with hh | hsep
        · exact Or.inr ⟨h, List.mem_cons_self h _, hh⟩
        · exact Or.inl (List.mem_singleton.mp hsep)
      · rcases ih hright with rfl | ⟨k, hk, hak⟩
        · exact Or.inl rfl
        · exact Or.inr ⟨k, List.mem_cons_of_mem h hk, hak⟩

theorem isU64Numeral_chars (w : List Char) (v : Nat)
    (h : isU64Numeral w v) :
    ∀ c ∈ w, c = '+' ∨ c.isDigit = true := by
  obtain ⟨ds, hw, _hne, hdig, _⟩ := h
  intro c hc
  rcases hw with rfl | rfl
  · exact Or.inr (hdig c hc)
  · rcases List.mem_cons.mp hc with rfl | hc2
    · exact Or.inl rfl
    · exact Or.inr (hdig c hc2)

theorem isU64Numeral_no_colon (w : List Char) (v : Nat)
    (h : isU64Numeral w v) : ':' ∉ w := by
  intro hc
  rcases isU64Numeral_chars w v h ':' hc with h1 | h1
  · exact absurd h1 (by decide)
  · exact absurd h1 (by decide)

theorem isU64Numeral_no_comma (w : List Char) (v : Nat)
    (h : isU64Numeral w v) : ',' ∉ w := by
  intro hc
  rcases isU64Numeral_chars w v h ',' hc with h1 | h1
  · exact absurd h1 (by decide)
  · exact absurd h1 (by decide)

theorem parseU64_ok_iff (s : List Char) (v : Nat) :
    parseU64 s = Except.ok v ↔ isU64Numeral s v := by
  constructor
  · intro h
    unfold parseU64 at h
    by_cases h0 : s = []
    · rw [if_pos h0] at h; exact Except.noConfusion h
    rw [if_neg h0] at h
    by_cases h1 : stripPlus s = []
    · rw [if_pos h1] at h; exact Except.noConfusion h
    rw [if_neg h1] at h
    by_cases h2 : (stripPlus s).all Char.isDigit = true
    · rw [if_pos h2] at h
      by_cases h3 : digitsVal (stripPlus s) < u64size
      · rw [if_pos h3] at h
        have hv : digitsVal (stripPlus s) = v := Except.ok.inj h
        refine ⟨stripPlus s, ?_, h1, ?_, hv, hv ▸ h3⟩
        · unfold stripPlus
          by_cases hh : s.head? = some '+'
          · rw [if_pos hh]
            right
            cases s with
            | nil => exact absurd rfl h0
            | cons c cs =>
              have : c = '+' := by
                have := hh
                simp [List.head?] at this
                exact this
              rw [this]
              rfl
          · rw [if_neg hh]
            exact Or.inl rfl
        · exact fun c hc => (List.all_eq_true.mp h2) c hc
      · rw [if_neg h3] at h; exact Except.noConfusion h
    · rw [if_neg h2] at h; exact Except.noConfusion h
  · rintro ⟨ds, hw, hne, hdig, hval, hlt⟩
    have hstrip : stripPlus s = ds := by
      rcases hw with hw | hw
      · have hhead : s.head? ≠ some '+' := by
          rw [hw]
          cases ds with
          | nil => exact absurd rfl hne
          | cons c cs =>
            intro hh
            have hc : c = '+' := by simpa using hh
            have hd := hdig c (List.mem_cons_self c cs)
            rw [hc] at hd
            exact absurd hd (by decide)
        unfold stripPlus
        rw [if_neg hhead, hw]
      · rw [hw]
        simp [stripPlus]
    have hsne : s ≠ [] := by
      rcases hw with hw | hw <;> rw [hw]
      · exact hne
      · exact List.cons_ne_nil _ _
    unfold parseU64
    rw [if_neg hsne, hstrip, if_neg hne,
      if_pos (List.all_eq_true.mpr hdig), hval, if_pos hlt]

/-- C9. `MiningKeyConfig::from_str` succeeds exactly on the strings of the
grammar `<share>,<m>:<key1>,...,<keyK>` — `share` and `m` base-10 unsigned
64-bit numerals, `K ≥ 1`, keys free of the separators — returning
`(share, m, [key1..keyK])` with a non-empty key list; every other string
yields a parse error (`goodForm` holding for no configuration forces the
`error` branch, since `Except` results are either `ok` or `error`). -/
theorem c9_from_str_grammar (s : List Char) (cfg : MiningKeyConfig) :
    MiningKeyConfig.fromStr s = Except.ok cfg ↔ goodForm s cfg := by
  constructor
  · intro h
    unfold MiningKeyConfig.fromStr at h
    split at h
    next p0 p1 heq1 =>
      split at h
      next s0 s1 heq2 =>
        split at h
        next e heq3 => exact Except.noConfusion h
        next share heq3 =>
          split at h
          next e heq4 => exact Except.noConfusion h
          next m heq4 =>
            obtain rfl : cfg = ⟨share, m, p1.splitOn ','⟩ := (Except.ok.inj h).symm
            refine ⟨s0, s1, (parseU64_ok_iff s0 share).mp heq3,
              (parseU64_ok_iff s1 m).mp heq4, ?_, ?_, ?_⟩
            · unfold List.splitOn
              exact List.splitOnP_ne_nil _ _
            · intro k hk
              constructor
              · intro hc
                have hmem : ':' ∈ p1 := splitOn_mem_subset ',' p1 k hk ':' hc
                have hp1 : p1 ∈ s.splitOn ':' := by
                  rw [heq1]
                  exact List.mem_cons_of_mem _ (List.mem_cons_self _ _)
                exact splitOn_mem_not_mem ':' s p1 hp1 hmem
              · exact splitOn_mem_not_mem ',' p1 k hk
            · have e1 : [':'].intercalate (s.splitOn ':') = s :=
                List.intercalate_splitOn s ':'
              rw [heq1, intercalate_pair] at e1
              have e2 : [','].intercalate (p0.splitOn ',') = p0 :=
                List.intercalate_splitOn p0 ','
              rw [heq2, intercalate_pair] at e2
              have e3 : [','].intercalate (p1.splitOn ',') = p1 :=
                List.intercalate_splitOn p1 ','
              show s = s0 ++ ',' :: (s1 ++ ':' :: [','].intercalate (p1.splitOn ','))
              rw [e3, ← e1, ← e2]
              simp
      next hx => exact Except.noConfusion h
    next hx => exact Except.noConfusion h
  · rintro ⟨w1, w2, h1, h2, hkne, hkfree, rfl⟩
    have hw1colon : ':' ∉ w1 := isU64Numeral_no_colon w1 cfg.share h1
    have hw2colon : ':' ∉ w2 := isU64Numeral_no_colon w2 cfg.m h2
    have hw1comma : ',' ∉ w1 := isU64Numeral_no_comma w1 cfg.share h1
    have hw2comma : ',' ∉ w2 := isU64Numeral_no_comma w2 cfg.m h2
    have hIcolon : ':' ∉ List.intercalate [','] cfg.keys := by
      intro hc
      rcases mem_intercalate_single ',' cfg.keys ':' hc with hcc | ⟨k, hk, hik⟩
      · exact absurd hcc (by decide)
      · exact absurd hik (hkfree k hk).1
    have hAcolon : ':' ∉ w1 ++ ',' :: w2 := by
      intro hc
      rcases List.mem_append.mp hc with hca | hcb
      · exact hw1colon hca
      · rcases List.mem_cons.mp hcb with hcc | hcd
        · exact absurd hcc (by decide)
        · exact hw2colon hcd
    have hshape : w1 ++ ',' :: (w2 ++ ':' :: List.intercalate [','] cfg.keys) =
        (w1 ++ ',' :: w2) ++ ':' :: List.intercalate [','] cfg.keys := by
      simp
    have hsplit1 : ((w1 ++ ',' :: w2) ++ ':' ::
        List.intercalate [','] cfg.keys).splitOn ':' =
        [w1 ++ ',' :: w2, List.intercalate [','] cfg.keys] :=
      splitOn_eq_pair ':' _ _ hAcolon hIcolon
    have hsplit2 : (w1 ++ ',' :: w2).splitOn ',' = [w1, w2] :=
      splitOn_eq_pair ',' w1 w2 hw1comma hw2comma
    have hsplit3 : (List.intercalate [','] cfg.keys).splitOn ',' = cfg.keys :=
      List.splitOn_intercalate cfg.keys ',' (fun l hl => (hkfree l hl).2) hkne
    have hparse1 : parseU64 w1 = Except.ok cfg.share :=
      (parseU64_ok_iff w1 cfg.share).mpr h1
    have hparse2 : parseU64 w2 = Except.ok cfg.m :=
      (parseU64_ok_iff w2 cfg.m).mpr h2
    rw [hshape]
    unfold MiningKeyConfig.fromStr
    simp only [hsplit1, hsplit2, hparse1, hparse2, hsplit3]

theorem c9_from_str_grammar_witness :
    MiningKeyConfig.fromStr "2,3:K1,K2".data =
      Except.ok ⟨2, 3, ["K1".data, "K2".data]⟩ ∧
    goodForm "2,3:K1,K2".data ⟨2, 3, ["K1".data, "K2".data]⟩ := by
  have h : MiningKeyConfig.fromStr "2,3:K1,K2".data =
      Except.ok ⟨2, 3, ["K1".data, "K2".data]⟩ := rfl
  exact ⟨h, (c9_from_str_grammar "2,3:K1,K2".data ⟨2, 3, ["K1".data, "K2".data]⟩).mp h⟩

theorem c5_scan_first_command_witness :
    ∃ pre post, [Noun.atom 7, cmdEffect 1] = pre ++ cmdEffect 1 :: post ∧
      MainDriver.isCommandEffect (cmdEffect 1) = true ∧
      ∀ e ∈ pre, MainDriver.isCommandEffect e = false :=
  (c5_scan_first_command [Noun.atom 7, cmdEffect 1]).2.2.1 (cmdEffect 1) (by decide)
